import Mathlib

/-!
Verification of the retrieval-augmented chat service (`server/app.js` and the
ingest script).  JavaScript strings are modelled as lists of characters
(`Str`), JavaScript numbers as real numbers (`ℝ`) where the code computes
with `Math.sqrt`, and as naturals where the code counts.  Fallible or fuel
bounded computations return `Option`.
-/

namespace ChatApp

/-- A JavaScript string: a sequence of characters. -/
abbrev Str := List Char

/-! ### Decimal rendering of a natural number

Models the JavaScript template-literal interpolation of a number, used in
record ids such as `` `${meta.idPrefix}::${i}` ``. -/

/-- Fuel-bounded digit accumulation; `natDigits` supplies sufficient fuel. -/
def natDigitsAux : ℕ → ℕ → List Char
  | 0, _ => []
  | fuel + 1, n =>
    if n < 10 then [Nat.digitChar n]
    else natDigitsAux fuel (n / 10) ++ [Nat.digitChar (n % 10)]

/-- Decimal digit string of a natural number (most significant digit first). -/
def natDigits (n : ℕ) : List Char := natDigitsAux (n + 1) n

/-- The record id `` `${idPref}::${i}` `` built by `embedAndAppend` and the
rebuild/ingest loops. -/
def mkId (idPref : Str) (i : ℕ) : Str := idPref ++ "::".data ++ natDigits i

/-! ### Data model (`IndexRecord`) -/

/-- The `type` field of an index record. -/
inductive SrcType where
  | file
  | url
deriving DecidableEq

/-- One record of the vector store (`INDEX.items` element). -/
structure IndexRecord where
  id : Str
  source : Str
  type : SrcType
  text : Str
  embedding : List ℝ

/-- An index record together with its per-query cosine score
(`{...it, score}` in `topKByCosine`). -/
structure ScoredRecord where
  item : IndexRecord
  score : ℝ

/-! ### Chunker (`chunkText`) -/

/-- One loop iteration of `chunkText` per unit of fuel: while `i < text.length`
push `text.slice(i, min(text.length, i + size))` and advance `i` by
`size - overlap`.  Returns `none` when the fuel runs out before the loop
exits, so non-termination of the source loop is observable. -/
def chunkTextFuel (text : Str) (size overlap : ℕ) : ℕ → ℕ → Option (List Str)
  | fuel, i =>
    if i < text.length then
      match fuel with
      | 0 => none
      | f + 1 =>
        let ep := min text.length (i + size)
        let chunk := (text.drop i).take (ep - i)
        Option.map (fun rest => chunk :: rest)
          (chunkTextFuel text size overlap f (i + (size - overlap)))
    else some []

/-- `chunkText(text, size, overlap)` with fuel `text.length + 1`, which is
sufficient whenever `overlap < size`. -/
def chunkText (text : Str) (size overlap : ℕ) : Option (List Str) :=
  chunkTextFuel text size overlap (text.length + 1) 0

/-! ### Cosine similarity and the retriever -/

/-- The dot-product loop of `cosine` (`dot += a[i] * b[i]`). -/
def dotp (a b : List ℝ) : ℝ := (List.zipWith (fun x y => x * y) a b).sum

/-- `cosine(a, b) = dot / (Math.sqrt(na) * Math.sqrt(nb) + 1e-9)`. -/
noncomputable def cosine (a b : List ℝ) : ℝ :=
  dotp a b / (Real.sqrt (dotp a a) * Real.sqrt (dotp b b) + 1e-9)

/-- Insert a scored record into a list that is already sorted by descending
score, after any records of equal score (the stable placement of
`Array.prototype.sort` with comparator `(a, b) => b.score - a.score`). -/
noncomputable def insertDesc (x : ScoredRecord) : List ScoredRecord → List ScoredRecord
  | [] => [x]
  | y :: ys => if y.score ≤ x.score then x :: y :: ys else y :: insertDesc x ys

/-- The stable sort by descending score used in `topKByCosine`. -/
noncomputable def sortByScoreDesc : List ScoredRecord → List ScoredRecord
  | [] => []
  | x :: xs => insertDesc x (sortByScoreDesc xs)

/-- The scoring map of `topKByCosine`:
`INDEX.items.map(it => ({...it, score: cosine(qEmb, it.embedding)}))`. -/
noncomputable def scoreAll (qEmb : List ℝ) (items : List IndexRecord) : List ScoredRecord :=
  items.map (fun it => ScoredRecord.mk it (cosine qEmb it.embedding))

/-- `topKByCosine(qEmb, k)`: score every stored item, sort descending by
score, and take the first `min k (number of items)` results
(`scored.slice(0, Math.min(k, scored.length))`). -/
noncomputable def topKByCosine (qEmb : List ℝ) (k : ℕ) (items : List IndexRecord) :
    List ScoredRecord :=
  (sortByScoreDesc (scoreAll qEmb items)).take
    (min k (sortByScoreDesc (scoreAll qEmb items)).length)

/-! ### Confidence gate and the chat route -/

/-- `topSim = top[0]?.score ?? 0`. -/
def topSimOf (top : List ScoredRecord) : ℝ :=
  (top.head?.map ScoredRecord.score).getD 0

/-- `avgTop3 = top.slice(0,3).reduce((s,x) => s + x.score, 0) /
Math.max(1, Math.min(3, top.length))`. -/
noncomputable def avgTop3Of (top : List ScoredRecord) : ℝ :=
  ((top.take 3).map ScoredRecord.score).sum / (max 1 (min 3 top.length) : ℕ)

/-- The refusal condition `topSim < MIN_TOP_SIM || avgTop3 < MIN_AVG_TOP3`. -/
def gateRefuses (minTopSim minAvgTop3 : ℝ) (top : List ScoredRecord) : Prop :=
  topSimOf top < minTopSim ∨ avgTop3Of top < minAvgTop3

/-- One entry of the `sources` array of a successful chat response. -/
structure ChatSource where
  id : ℕ
  source : Str
  score : ℝ

/-- The body of a `/api/chat` response. -/
inductive ChatResponse where
  | badRequest (error : Str)
  | ok (answer : Str) (sources : List ChatSource)

/-- HTTP status attached to a chat response. -/
def statusCodeOf : ChatResponse → ℕ
  | ChatResponse.badRequest _ => 400
  | ChatResponse.ok _ _ => 200

/-- The fixed refusal answer text. -/
def refusalText : Str := "برای این موضوع آموزش ندیده‌ام و نمی‌توانم پاسخ بدهم.".data

/-- `refusalMessage()`: the fixed refusal answer with an empty sources list. -/
def refusalMessage : ChatResponse := ChatResponse.ok refusalText []

/-- `Number(t.score.toFixed(3))`: rounding to three decimals. -/
noncomputable def roundTo3 (x : ℝ) : ℝ := (round (x * 1000) : ℤ) / 1000

/-- The `/api/chat` handler.  `message` is `none` when the request body has no
string field `message`; the empty string is also rejected (it is falsy).
The external services are parameters: `embedQ` embeds the query and
`complete` produces the model answer.  The result carries, besides the
response body, whether the embedding service was called and the index after
the request (the handler never mutates it). -/
noncomputable def chatHandler (minTopSim minAvgTop3 : ℝ) (idx : List IndexRecord)
    (message : Option Str) (embedQ : Str → List ℝ) (complete : Str → Str) :
    ChatResponse × Bool × List IndexRecord :=
  match message with
  | none => (ChatResponse.badRequest "message is required".data, false, idx)
  | some m =>
    if m = [] then (ChatResponse.badRequest "message is required".data, false, idx)
    else if idx.length = 0 then
      (ChatResponse.badRequest "No index found. Use admin panel to add resources.".data,
        false, idx)
    else
      let qEmb := embedQ m
      let top := topKByCosine qEmb 5 idx
      if topSimOf top < minTopSim ∨ avgTop3Of top < minAvgTop3 then
        (refusalMessage, true, idx)
      else
        (ChatResponse.ok (complete m)
          (top.enum.map (fun p =>
            ChatSource.mk (p.1 + 1) p.2.item.source (roundTo3 p.2.score))),
          true, idx)

/-! ### Admin authentication (`requireAdmin`) -/

/-- Result of the `requireAdmin` middleware. -/
inductive AuthCheck where
  | err500
  | err401
  | pass
deriving DecidableEq

/-- `requireAdmin`: 500 when `ADMIN_TOKEN` is unset (empty), 401 when the
bearer token extracted from the `Authorization` header differs from it,
otherwise fall through to the route handler. -/
def requireAdmin (adminToken : Str) (authHeader : Option Str) : AuthCheck :=
  if adminToken = [] then AuthCheck.err500
  else if (if ("Bearer ".data).isPrefixOf (authHeader.getD [])
           then (authHeader.getD []).drop 7 else []) = adminToken
  then AuthCheck.pass
  else AuthCheck.err401

/-- An admin endpoint behind `requireAdmin`: the handler runs only when the
middleware calls `next()`; otherwise the middleware's error status is the
response. -/
def adminEndpoint {α : Type} (adminToken : Str) (authHeader : Option Str)
    (handler : Unit → α) : Except ℕ α :=
  match requireAdmin adminToken authHeader with
  | AuthCheck.err500 => Except.error 500
  | AuthCheck.err401 => Except.error 401
  | AuthCheck.pass => Except.ok (handler ())

/-! ### Vector store mutations -/

/-- One ingestion batch: the chunks of a single source together with their
embeddings and the id prefix (`file:<name>` or `url:<url>`). -/
structure Batch where
  idPref : Str
  source : Str
  type : SrcType
  chunks : List Str
  embs : List (List ℝ)

/-- The records pushed for one batch: for each chunk index `i` a record with
id `` `${idPref}::${i}` ``. -/
def batchRecords (b : Batch) : List IndexRecord :=
  (List.range b.chunks.length).map (fun i =>
    IndexRecord.mk (mkId b.idPref i) b.source b.type (b.chunks.getD i []) (b.embs.getD i []))

/-- `embedAndAppend`: append the batch records to the in-memory index. -/
def embedAndAppend (idx : List IndexRecord) (b : Batch) : List IndexRecord :=
  idx ++ batchRecords b

/-- `DELETE /api/admin/source`: keep the records whose `source` differs,
return the new index and the number of records removed
(`before - INDEX.items.length`). -/
def deleteBySource (idx : List IndexRecord) (s : Str) : List IndexRecord × ℕ :=
  let kept := idx.filter (fun it => it.source ≠ s)
  (kept, idx.length - kept.length)

/-- The index mutations reachable through the admin API. -/
inductive Mutation where
  | append (b : Batch)
  | deleteSrc (source : Str)
  | rebuild (batches : List Batch)

/-- Effect of one mutation on the in-memory index.  `rebuild` replaces the
whole index with the records rebuilt from the given batches. -/
def applyMutation (idx : List IndexRecord) : Mutation → List IndexRecord
  | Mutation.append b => embedAndAppend idx b
  | Mutation.deleteSrc s => (deleteBySource idx s).1
  | Mutation.rebuild bs => bs.flatMap batchRecords

/-- Run a sequence of mutations starting from the empty index loaded at
process start. -/
def runMutations (ms : List Mutation) : List IndexRecord :=
  ms.foldl applyMutation []

/-- The id prefixes introduced by one mutation. -/
def mutPrefixList : Mutation → List Str
  | Mutation.append b => [b.idPref]
  | Mutation.deleteSrc _ => []
  | Mutation.rebuild bs => bs.map Batch.idPref

/-! ### Concrete sample data used by witnesses and counterexamples -/

/-- A sample stored record (source `a`). -/
def recA : IndexRecord :=
  IndexRecord.mk "file:a::0".data "a".data SrcType.file "ta".data [1]

/-- A sample stored record (source `b`). -/
def recB : IndexRecord :=
  IndexRecord.mk "file:b::0".data "b".data SrcType.file "tb".data [1]

/-- Scored records with given scores over a fixed record, for exercising the
confidence gate on explicit score lists. -/
def scoreList (xs : List ℝ) : List ScoredRecord :=
  xs.map (fun x => ScoredRecord.mk recA x)

/-- A one-chunk URL batch for the url `u`. -/
def batchU : Batch :=
  Batch.mk "url:u".data "u".data SrcType.url ["cu".data] [[]]

/-! ## Chunker lemmas -/

/-- Full description of the `chunkText` loop from position `i`, given enough
fuel and `overlap < size`: it returns the list of sliding windows of width
`size` taken every `size - overlap` characters, and the number of windows is
the round-up of the remaining length divided by the step. -/
theorem chunkTextFuel_spec (text : Str) (size overlap : ℕ) (hso : overlap < size) :
    ∀ fuel i, text.length - i ≤ fuel →
      ∃ l, chunkTextFuel text size overlap fuel i = some l ∧
        l.length = (text.length - i + (size - overlap) - 1) / (size - overlap) ∧
        ∀ j, (hj : j < l.length) →
          l.get ⟨j, hj⟩ = (text.drop (i + j * (size - overlap))).take size := by
  intro fuel
  have hstep : 0 < size - overlap := by omega
  induction fuel with
  | zero =>
    intro i hi
    have hL : ¬ i < text.length := by omega
    refine ⟨[], by simp [chunkTextFuel, hL], ?_, by intro j hj; simp at hj⟩
    have h0 : text.length - i = 0 := by omega
    rw [List.length_nil, h0, Nat.div_eq_of_lt (by omega)]
  | succ f ih =>
    intro i hi
    by_cases hL : i < text.length
    · obtain ⟨l, hl, hlen, hget⟩ := ih (i + (size - overlap)) (by omega)
      refine ⟨(text.drop i).take (min text.length (i + size) - i) :: l, ?_, ?_, ?_⟩
      · simp only [chunkTextFuel]
        rw [if_pos hL, hl]
        rfl
      · rw [List.length_cons, hlen]
        have hm : 1 ≤ text.length - i := by omega
        have hrhs : (text.length - i + (size - overlap) - 1) / (size - overlap)
            = (text.length - i - 1) / (size - overlap) + 1 := by
          have h : text.length - i + (size - overlap) - 1
              = (text.length - i - 1) + (size - overlap) := by omega
          rw [h, Nat.add_div_right _ hstep]
        rcases le_or_lt (text.length - i) (size - overlap) with hms | hms
        · have h1 : text.length - (i + (size - overlap)) = 0 := by omega
          have h2 : (0 : ℕ) + (size - overlap) - 1 = size - overlap - 1 := by omega
          rw [h1, h2, Nat.div_eq_of_lt (by omega), hrhs, Nat.div_eq_of_lt (by omega)]
        · have h1 : text.length - (i + (size - overlap))
              = text.length - i - (size - overlap) := by omega
          have h2 : text.length - i - (size - overlap) + (size - overlap) - 1
              = text.length - i - 1 := by omega
          rw [h1, h2, hrhs]
      · intro j hj
        cases j with
        | zero =>
          show (text.drop i).take (min text.length (i + size) - i)
              = (text.drop (i + 0 * (size - overlap))).take size
          have h0 : i + 0 * (size - overlap) = i := by omega
          rw [h0, List.take_eq_take]
          simp only [List.length_drop]
          omega
        | succ n =>
          have hn : n < l.length := by
            rw [List.length_cons] at hj
            omega
          have step : ((text.drop i).take (min text.length (i + size) - i) :: l).get
              ⟨n + 1, hj⟩ = l.get ⟨n, hn⟩ := rfl
          rw [step, hget n hn]
          have harith : i + (size - overlap) + n * (size - overlap)
              = i + (n + 1) * (size - overlap) := by ring
          rw [harith]
    · refine ⟨[], by simp [chunkTextFuel, hL], ?_, by intro j hj; simp at hj⟩
      have h0 : text.length - i = 0 := by omega
      rw [List.length_nil, h0, Nat.div_eq_of_lt (by omega)]

/-- `chunkText` under `overlap < size`: the fuel is sufficient, the chunks
are the sliding windows, and their number is `⌈L / (size - overlap)⌉`. -/
theorem chunkText_some_spec (text : Str) (size overlap : ℕ) (hso : overlap < size) :
    ∃ l, chunkText text size overlap = some l ∧
      l.length = (text.length + (size - overlap) - 1) / (size - overlap) ∧
      ∀ j, (hj : j < l.length) →
        l.get ⟨j, hj⟩ = (text.drop (j * (size - overlap))).take size := by
  obtain ⟨l, hl, hlen, hget⟩ :=
    chunkTextFuel_spec text size overlap hso (text.length + 1) 0 (by omega)
  refine ⟨l, hl, by simpa using hlen, ?_⟩
  intro j hj
  simpa using hget j hj

/-- C2 (amended): for every text of length `L` chunked with size `S` and
overlap `O < S`, `chunkText` terminates and produces exactly
`⌈L / (S − O)⌉ = (L + (S − O) − 1) / (S − O)` chunks; in particular `0`
chunks for `L = 0`.  (The claimed count `⌈(L − O) / (S − O)⌉`, with one
chunk for `0 < L ≤ O`, is what the counterexample refutes.) -/
theorem chunkText_count (text : Str) (size overlap : ℕ) (hso : overlap < size) :
    (chunkText text size overlap).map List.length
      = some ((text.length + (size - overlap) - 1) / (size - overlap)) := by
  obtain ⟨l, hl, hlen, -⟩ := chunkText_some_spec text size overlap hso
  rw [hl]
  exact congrArg some hlen

/-- Witness: chunking a 2-character text with size 3 and overlap 1 yields
exactly `⌈2 / 2⌉ = 1` chunk. -/
theorem chunkText_count_witness :
    (chunkText "ab".data 3 1).map List.length = some 1 := by
  rw [chunkText_count "ab".data 3 1 (by decide)]
  rfl

/-- C2 counterexample: for the text `"abc"` (`L = 3`) with `S = 3`, `O = 2`
(so `O < S` and `L > O`), the code produces `3` chunks while the claimed
formula `⌈(L − O) / (S − O)⌉` predicts `1`. -/
theorem chunkText_count_cex :
    (chunkText "abc".data 3 2).map List.length = some 3 ∧
    ("abc".data.length - 2 + (3 - 2) - 1) / (3 - 2) = 1 ∧ (3 : ℕ) ≠ 1 := by
  decide

/-- C3: the code has no guard for `overlap ≥ size`: with `size = overlap = 1`
on the text `"a"` the loop index never advances, so no amount of fuel makes
the loop finish (the server would hang, not raise a configuration error).
Under the precondition `overlap < size` the loop does terminate for every
input text. -/
theorem chunkText_unguarded :
    (∀ fuel, chunkTextFuel "a".data 1 1 fuel 0 = none) ∧
    (∀ (text : Str) (size overlap : ℕ), overlap < size →
      (chunkText text size overlap).isSome = true) := by
  constructor
  · intro fuel
    induction fuel with
    | zero => decide
    | succ f ih =>
      simp only [chunkTextFuel]
      rw [if_pos (by decide)]
      have h0 : 0 + (1 - 1) = 0 := by omega
      rw [h0, ih]
      rfl
  · intro text size overlap hso
    obtain ⟨l, hl, -, -⟩ := chunkText_some_spec text size overlap hso
    rw [hl]
    rfl

/-- Witness: with `overlap = 1 < 3 = size` the chunker terminates on `"ab"`. -/
theorem chunkText_unguarded_witness :
    (chunkText "ab".data 3 1).isSome = true :=
  chunkText_unguarded.2 "ab".data 3 1 (by decide)

/-- C8 (amended): under `overlap < size` the chunks are the sliding windows
`text[j·(S−O) .. j·(S−O)+S)`: each chunk starts `S − O` characters after the
previous one, every character of the text appears in at least one chunk
(namely in chunk `p / (S−O)`), and consecutive chunks `j, j+1` share exactly
`min O (L − (j+1)·(S−O))` characters — this is `O` except possibly for the
trailing chunks that reach the end of the text. -/
theorem chunkText_window (text : Str) (size overlap : ℕ) (hso : overlap < size) :
    ∃ l, chunkText text size overlap = some l ∧
      (∀ j, (hj : j < l.length) →
        l.get ⟨j, hj⟩ = (text.drop (j * (size - overlap))).take size) ∧
      (∀ p, (hp : p < text.length) →
        ∃ hj : p / (size - overlap) < l.length,
          text.get ⟨p, hp⟩ ∈ l.get ⟨p / (size - overlap), hj⟩) ∧
      (∀ j, (hj : j + 1 < l.length) →
        (l.get ⟨j + 1, hj⟩).take (min overlap (text.length - (j + 1) * (size - overlap)))
          = (l.get ⟨j, Nat.lt_of_succ_lt hj⟩).drop
              ((l.get ⟨j, Nat.lt_of_succ_lt hj⟩).length
                - min overlap (text.length - (j + 1) * (size - overlap)))) := by
  have hstep : 0 < size - overlap := by omega
  obtain ⟨l, hl, hlen, hget⟩ := chunkText_some_spec text size overlap hso
  refine ⟨l, hl, hget, ?_, ?_⟩
  · -- coverage: character `p` lies in chunk `p / (size - overlap)`
    intro p hp
    have hmod := Nat.div_add_mod p (size - overlap)
    have hmodlt : p % (size - overlap) < size - overlap := Nat.mod_lt _ hstep
    have hcomm : (size - overlap) * (p / (size - overlap))
        = (p / (size - overlap)) * (size - overlap) := Nat.mul_comm _ _
    rw [hcomm] at hmod
    -- abbreviate the window start
    have hstart_le : (p / (size - overlap)) * (size - overlap) ≤ p := by omega
    have hstart_gt : p < (p / (size - overlap)) * (size - overlap) + (size - overlap) := by
      omega
    have hsucc : (p / (size - overlap) + 1) * (size - overlap)
        = (p / (size - overlap)) * (size - overlap) + (size - overlap) :=
      Nat.succ_mul _ _
    have hj : p / (size - overlap) < l.length := by
      rw [hlen]
      have hle : (p / (size - overlap) + 1) * (size - overlap)
          ≤ text.length + (size - overlap) - 1 := by omega
      have := (Nat.le_div_iff_mul_le hstep).mpr hle
      omega
    refine ⟨hj, ?_⟩
    rw [hget _ hj]
    have hbound : p - (p / (size - overlap)) * (size - overlap)
        < ((text.drop ((p / (size - overlap)) * (size - overlap))).take size).length := by
      rw [List.length_take, List.length_drop]
      omega
    have hchar : ((text.drop ((p / (size - overlap)) * (size - overlap))).take size).get
        ⟨p - (p / (size - overlap)) * (size - overlap), hbound⟩ = text.get ⟨p, hp⟩ := by
      simp only [List.get_eq_getElem, List.getElem_take, List.getElem_drop]
      congr 1
      omega
    rw [← hchar]
    exact List.get_mem _ _ _
  · -- consecutive chunks share exactly `min O (L − start of the later chunk)`
    intro j hj
    have hjl : j < l.length := Nat.lt_of_succ_lt hj
    have hsucc : (j + 1) * (size - overlap) = j * (size - overlap) + (size - overlap) :=
      Nat.succ_mul _ _
    have hsucc2 : (j + 2) * (size - overlap)
        = j * (size - overlap) + (size - overlap) + (size - overlap) := by ring
    have hstrict : (j + 1) * (size - overlap) < text.length := by
      rw [hlen] at hj
      have hle : (j + 2) * (size - overlap) ≤ text.length + (size - overlap) - 1 :=
        (Nat.le_div_iff_mul_le hstep).mp (by omega)
      omega
    rw [hget _ hj, hget _ hjl]
    -- the right-hand side: the tail of chunk `j` from the overlap point on
    have hlenj : ((text.drop (j * (size - overlap))).take size).length
        = min size (text.length - j * (size - overlap)) := by
      rw [List.length_take, List.length_drop]
    have hcut : min size (text.length - j * (size - overlap))
          - min overlap (text.length - (j + 1) * (size - overlap))
        = size - overlap := by omega
    rw [hlenj, hcut, List.drop_take, List.drop_drop]
    -- now both sides are takes of `text.drop ((j+1)·step)`
    have hidx : j * (size - overlap) + (size - overlap) = (j + 1) * (size - overlap) := by
      omega
    rw [hidx, List.take_take, List.take_eq_take]
    rw [List.length_drop]
    omega

/-- Witness for C8 at text `"abcd"`, size 3, overlap 1: instantiates the
sliding-window description, the coverage of character 3, and the shared
characters of chunks 0 and 1. -/
theorem chunkText_window_witness :
    ∃ l, chunkText "abcd".data 3 1 = some l ∧
      (∀ j, (hj : j < l.length) →
        l.get ⟨j, hj⟩ = ("abcd".data.drop (j * (3 - 1))).take 3) ∧
      (∀ p, (hp : p < "abcd".data.length) →
        ∃ hj : p / (3 - 1) < l.length,
          "abcd".data.get ⟨p, hp⟩ ∈ l.get ⟨p / (3 - 1), hj⟩) ∧
      (∀ j, (hj : j + 1 < l.length) →
        (l.get ⟨j + 1, hj⟩).take (min 1 ("abcd".data.length - (j + 1) * (3 - 1)))
          = (l.get ⟨j, Nat.lt_of_succ_lt hj⟩).drop
              ((l.get ⟨j, Nat.lt_of_succ_lt hj⟩).length
                - min 1 ("abcd".data.length - (j + 1) * (3 - 1)))) :=
  chunkText_window "abcd".data 3 1 (by decide)

/-- C8 counterexample: for `"abcde"` with `S = 4`, `O = 3` the chunks are
`abcd, bcde, cde, de, e`; the consecutive pair at indices 2 and 3 does not
involve the last chunk (index 4), yet the two chunks share only 2
characters — chunk 3 is even shorter than `O = 3` — refuting "consecutive
chunks (except possibly at the last) share exactly O characters". -/
theorem chunkText_overlap_cex :
    chunkText "abcde".data 4 3
      = some ["abcd".data, "bcde".data, "cde".data, "de".data, "e".data] ∧
    2 + 1 < 5 - 1 ∧
    "de".data.length < 3 ∧
    "de".data.take 3 ≠ "cde".data.drop ("cde".data.length - 3) := by
  decide

/-! ## Cosine similarity lemmas -/

theorem dotp_self_nonneg (a : List ℝ) : 0 ≤ dotp a a := by
  induction a with
  | nil => simp [dotp]
  | cons x xs ih =>
    simp only [dotp, List.zipWith_cons_cons, List.sum_cons] at ih ⊢
    have hx := mul_self_nonneg x
    linarith

theorem dotp_self_pos (a : List ℝ) (h : ∃ x ∈ a, x ≠ 0) : 0 < dotp a a := by
  induction a with
  | nil => simp at h
  | cons x xs ih =>
    simp only [dotp, List.zipWith_cons_cons, List.sum_cons] at ih ⊢
    obtain ⟨y, hy, hy0⟩ := h
    rcases List.mem_cons.mp hy with h1 | h2
    · subst h1
      have h1 := mul_self_pos.mpr hy0
      have h2 := dotp_self_nonneg xs
      simp only [dotp] at h2
      linarith
    · have h1 := ih ⟨y, h2, hy0⟩
      have h2 := mul_self_nonneg x
      linarith

/-- C6 counterexample: for the identical non-zero vectors `[1]` and `[1]`
the code returns `1 / (1 + 1e-9)`, which is not exactly `1.0`: the epsilon
in the denominator keeps the quotient strictly below one. -/
theorem cosine_exact_one_cex : cosine [(1 : ℝ)] [(1 : ℝ)] ≠ 1 := by
  simp only [cosine, dotp, List.zipWith_cons_cons, List.zipWith_nil_right, List.sum_cons,
    List.sum_nil, one_mul, add_zero, Real.sqrt_one]
  norm_num

/-- C6 (amended): the cosine similarity `dot(a,b) / (‖a‖·‖b‖ + ε)` with
`ε = 1e-9` is exactly `0` for orthogonal vectors (zero dot product), while
for a pair of identical non-zero vectors it equals
`‖a‖² / (‖a‖² + ε)`, which is strictly less than `1` (never exactly `1.0`). -/
theorem cosine_values (a b : List ℝ) :
    (dotp a b = 0 → cosine a b = 0) ∧
    ((∃ x ∈ a, x ≠ 0) →
      cosine a a = dotp a a / (dotp a a + 1e-9) ∧ cosine a a < 1) := by
  constructor
  · intro h
    simp [cosine, h]
  · intro h
    have hpos := dotp_self_pos a h
    have hsq : Real.sqrt (dotp a a) * Real.sqrt (dotp a a) = dotp a a :=
      Real.mul_self_sqrt (le_of_lt hpos)
    have h9 : (0 : ℝ) < 1e-9 := by norm_num
    constructor
    · rw [cosine, hsq]
    · rw [cosine, hsq, div_lt_one (by linarith)]
      linarith

/-- Witness: the orthogonal pair `[1,0] ⊥ [0,1]` scores exactly `0`, and the
identical non-zero pair `([1,0],[1,0])` scores strictly below `1`. -/
theorem cosine_values_witness :
    cosine [(1 : ℝ), 0] [(0 : ℝ), 1] = 0 ∧ cosine [(1 : ℝ), 0] [(1 : ℝ), 0] < 1 :=
  ⟨(cosine_values [(1 : ℝ), 0] [(0 : ℝ), 1]).1 (by norm_num [dotp]),
   ((cosine_values [(1 : ℝ), 0] [(0 : ℝ), 1]).2 ⟨1, by simp, one_ne_zero⟩).2⟩

/-! ## Sorting lemmas for the retriever -/

theorem mem_insertDesc {x z : ScoredRecord} {l : List ScoredRecord} :
    z ∈ insertDesc x l ↔ z = x ∨ z ∈ l := by
  induction l with
  | nil => simp [insertDesc]
  | cons y ys ih =>
    simp only [insertDesc]
    by_cases h : y.score ≤ x.score
    · rw [if_pos h]
      simp [List.mem_cons, or_comm, or_left_comm]
    · rw [if_neg h]
      simp only [List.mem_cons, ih]
      tauto

theorem insertDesc_perm (x : ScoredRecord) (l : List ScoredRecord) :
    (insertDesc x l).Perm (x :: l) := by
  induction l with
  | nil => simp [insertDesc]
  | cons y ys ih =>
    simp only [insertDesc]
    by_cases h : y.score ≤ x.score
    · rw [if_pos h]
    · rw [if_neg h]
      exact (ih.cons y).trans (List.Perm.swap x y ys)

theorem sortByScoreDesc_perm (l : List ScoredRecord) : (sortByScoreDesc l).Perm l := by
  induction l with
  | nil => simp [sortByScoreDesc]
  | cons x xs ih =>
    exact (insertDesc_perm x (sortByScoreDesc xs)).trans (ih.cons x)

theorem sorted_insertDesc {x : ScoredRecord} {l : List ScoredRecord}
    (h : List.Sorted (fun a b : ScoredRecord => b.score ≤ a.score) l) :
    List.Sorted (fun a b : ScoredRecord => b.score ≤ a.score) (insertDesc x l) := by
  induction l with
  | nil => simp [insertDesc]
  | cons y ys ih =>
    rw [List.sorted_cons] at h
    obtain ⟨hy, hys⟩ := h
    simp only [insertDesc]
    by_cases hc : y.score ≤ x.score
    · rw [if_pos hc, List.sorted_cons]
      constructor
      · intro b hb
        rcases List.mem_cons.mp hb with rfl | hb2
        · exact hc
        · exact le_trans (hy b hb2) hc
      · rw [List.sorted_cons]
        exact ⟨hy, hys⟩
    · rw [if_neg hc, List.sorted_cons]
      refine ⟨?_, ih hys⟩
      intro b hb
      rcases mem_insertDesc.mp hb with rfl | hb2
      · exact le_of_lt (lt_of_not_le hc)
      · exact hy b hb2

theorem sorted_sortByScoreDesc (l : List ScoredRecord) :
    List.Sorted (fun a b : ScoredRecord => b.score ≤ a.score) (sortByScoreDesc l) := by
  induction l with
  | nil => simp [sortByScoreDesc]
  | cons x xs ih => exact sorted_insertDesc ih

theorem sortByScoreDesc_length (l : List ScoredRecord) :
    (sortByScoreDesc l).length = l.length :=
  (sortByScoreDesc_perm l).length_eq

theorem scoreAll_length (qEmb : List ℝ) (items : List IndexRecord) :
    (scoreAll qEmb items).length = items.length := by
  simp [scoreAll]

theorem topKByCosine_length (qEmb : List ℝ) (k : ℕ) (items : List IndexRecord) :
    (topKByCosine qEmb k items).length = min k items.length := by
  rw [topKByCosine, List.length_take, sortByScoreDesc_length, scoreAll_length]
  omega

/-- C4 (amended): `topK(queryEmbedding, k)` returns exactly
`min k |index|` scored records, sorted in non-increasing (descending, but
not necessarily strictly descending) order of score; when `k ≥ |index|` the
result is a permutation of the whole index with each item carrying its
cosine score against the query. -/
theorem topKByCosine_spec (qEmb : List ℝ) (k : ℕ) (items : List IndexRecord) :
    (topKByCosine qEmb k items).length = min k items.length ∧
    List.Sorted (fun a b : ScoredRecord => b.score ≤ a.score) (topKByCosine qEmb k items) ∧
    (items.length ≤ k →
      ((topKByCosine qEmb k items).map ScoredRecord.item).Perm items ∧
      ∀ t ∈ topKByCosine qEmb k items, t.score = cosine qEmb t.item.embedding) := by
  have hperm := sortByScoreDesc_perm (scoreAll qEmb items)
  have hlen : (sortByScoreDesc (scoreAll qEmb items)).length = items.length := by
    rw [hperm.length_eq]
    simp [scoreAll]
  have hmapitem : (scoreAll qEmb items).map ScoredRecord.item = items := by
    rw [scoreAll, List.map_map]
    exact List.map_id'' (fun x => rfl) items
  refine ⟨topKByCosine_length qEmb k items, ?_, ?_⟩
  · exact List.Pairwise.sublist (List.take_sublist _ _) (sorted_sortByScoreDesc _)
  · intro hk
    have htake : topKByCosine qEmb k items = sortByScoreDesc (scoreAll qEmb items) := by
      rw [topKByCosine]
      apply List.take_of_length_le
      omega
    constructor
    · rw [htake]
      have := hperm.map ScoredRecord.item
      rw [hmapitem] at this
      exact this
    · intro t ht
      rw [htake] at ht
      have hmem : t ∈ scoreAll qEmb items := hperm.mem_iff.mp ht
      simp only [scoreAll, List.mem_map] at hmem
      obtain ⟨it, hit, rfl⟩ := hmem
      rfl

/-- Witness: with one stored record and `k = 1`, `topK` returns that record
(scored) as a permutation of the whole index. -/
theorem topKByCosine_spec_witness :
    ((topKByCosine [(1 : ℝ)] 1 [recA]).map ScoredRecord.item).Perm [recA] :=
  ((topKByCosine_spec [(1 : ℝ)] 1 [recA]).2.2 (by simp)).1

/-- C4 counterexample: with two identical stored records the two scores are
equal, so the returned sequence is not *strictly* descending by score. -/
theorem topK_strict_cex :
    ¬ List.Chain' (fun a b : ScoredRecord => b.score < a.score)
      (topKByCosine [(1 : ℝ)] 2 [recA, recA]) := by
  have hscored : scoreAll [(1 : ℝ)] [recA, recA]
      = [ScoredRecord.mk recA (cosine [1] [1]), ScoredRecord.mk recA (cosine [1] [1])] := by
    simp [scoreAll, recA]
  have hsort : sortByScoreDesc
        [ScoredRecord.mk recA (cosine [1] [1]), ScoredRecord.mk recA (cosine [1] [1])]
      = [ScoredRecord.mk recA (cosine [1] [1]), ScoredRecord.mk recA (cosine [1] [1])] := by
    simp [sortByScoreDesc, insertDesc]
  rw [topKByCosine, hscored, hsort]
  simp [List.chain'_cons, lt_irrefl]

/-! ## Confidence gate and chat route -/

/-- C1: for every query on a non-empty index (so that retrieval yields
scored results), `topSim` is the rank-1 score and `avgTop3` is the mean of
the scores of ranks `1..min(3, number of results)`; the handler emits the
fixed refusal response (fixed text, empty sources) exactly when
`topSim < MIN_TOP_SIM` or `avgTop3 < MIN_AVG_TOP3`, and otherwise proceeds
to answer generation.  With the default thresholds `0.78` and `0.72`,
scores `[0.9, 0.8, 0.75]` pass the gate and `[0.5, 0.4, 0.3]` are refused. -/
theorem chat_confidence_gate (minTopSim minAvgTop3 : ℝ) (idx : List IndexRecord)
    (m : Str) (embedQ : Str → List ℝ) (complete : Str → Str)
    (hm : m ≠ []) (hidx : idx ≠ []) :
    ∃ hne : topKByCosine (embedQ m) 5 idx ≠ [],
      topSimOf (topKByCosine (embedQ m) 5 idx)
          = ((topKByCosine (embedQ m) 5 idx).head hne).score ∧
      avgTop3Of (topKByCosine (embedQ m) 5 idx)
          = (((topKByCosine (embedQ m) 5 idx).take 3).map ScoredRecord.score).sum
              / (min 3 (topKByCosine (embedQ m) 5 idx).length : ℕ) ∧
      ((chatHandler minTopSim minAvgTop3 idx (some m) embedQ complete).1
          = ChatResponse.ok refusalText [] ↔
        gateRefuses minTopSim minAvgTop3 (topKByCosine (embedQ m) 5 idx)) ∧
      (¬ gateRefuses minTopSim minAvgTop3 (topKByCosine (embedQ m) 5 idx) →
        (chatHandler minTopSim minAvgTop3 idx (some m) embedQ complete).1
          = ChatResponse.ok (complete m)
            ((topKByCosine (embedQ m) 5 idx).enum.map (fun p =>
              ChatSource.mk (p.1 + 1) p.2.item.source (roundTo3 p.2.score)))) ∧
      ¬ gateRefuses 0.78 0.72 (scoreList [0.9, 0.8, 0.75]) ∧
      gateRefuses 0.78 0.72 (scoreList [0.5, 0.4, 0.3]) := by
  have hpos : 0 < idx.length := List.length_pos.mpr hidx
  have hlen : (topKByCosine (embedQ m) 5 idx).length = min 5 idx.length :=
    topKByCosine_length (embedQ m) 5 idx
  have hne : topKByCosine (embedQ m) 5 idx ≠ [] := by
    apply List.ne_nil_of_length_pos
    omega
  have hunfold : chatHandler minTopSim minAvgTop3 idx (some m) embedQ complete
      = if topSimOf (topKByCosine (embedQ m) 5 idx) < minTopSim ∨
           avgTop3Of (topKByCosine (embedQ m) 5 idx) < minAvgTop3 then
          (refusalMessage, true, idx)
        else
          (ChatResponse.ok (complete m)
            ((topKByCosine (embedQ m) 5 idx).enum.map (fun p =>
              ChatSource.mk (p.1 + 1) p.2.item.source (roundTo3 p.2.score))),
            true, idx) := by
    simp only [chatHandler]
    rw [if_neg hm, if_neg (by simpa [List.length_eq_zero] using hidx)]
  refine ⟨hne, ?_, ?_, ?_, ?_, ?_, ?_⟩
  · rw [topSimOf, List.head?_eq_head hne]
    rfl
  · rw [avgTop3Of]
    have hmax : max 1 (min 3 (topKByCosine (embedQ m) 5 idx).length)
        = min 3 (topKByCosine (embedQ m) 5 idx).length := by omega
    rw [hmax]
  · by_cases hg : topSimOf (topKByCosine (embedQ m) 5 idx) < minTopSim ∨
        avgTop3Of (topKByCosine (embedQ m) 5 idx) < minAvgTop3
    · rw [hunfold, if_pos hg]
      exact iff_of_true rfl hg
    · rw [hunfold, if_neg hg]
      apply iff_of_false ?_ hg
      intro habs
      have hsources : ((topKByCosine (embedQ m) 5 idx).enum.map (fun p =>
          ChatSource.mk (p.1 + 1) p.2.item.source (roundTo3 p.2.score))) = [] :=
        (ChatResponse.ok.injEq _ _ _ _).mp habs |>.2
      have : (topKByCosine (embedQ m) 5 idx).length = 0 := by
        have h1 := congrArg List.length hsources
        simpa [List.enum_length] using h1
      omega
  · intro hg
    have hraw : ¬ (topSimOf (topKByCosine (embedQ m) 5 idx) < minTopSim ∨
        avgTop3Of (topKByCosine (embedQ m) 5 idx) < minAvgTop3) := hg
    rw [hunfold, if_neg hraw]
  · rw [gateRefuses]
    push_neg
    constructor
    · show _ ≤ topSimOf _
      simp only [scoreList, List.map_cons, topSimOf, List.head?_cons, Option.map_some,
        Option.getD_some]
      norm_num
    · show _ ≤ avgTop3Of _
      simp only [scoreList, List.map_cons, List.map_nil, avgTop3Of, List.take,
        List.length_cons, List.length_nil, List.sum_cons, List.sum_nil]
      norm_num
  · refine Or.inl ?_
    simp only [scoreList, List.map_cons, topSimOf, List.head?_cons, Option.map_some,
      Option.getD_some]
    norm_num

/-- Witness for C1: with default thresholds the scores `[0.5, 0.4, 0.3]`
make the gate refuse. -/
theorem chat_confidence_gate_witness :
    gateRefuses 0.78 0.72 (scoreList [0.5, 0.4, 0.3]) := by
  obtain ⟨hne, h⟩ := chat_confidence_gate 0.78 0.72 [recA] "q".data (fun _ => [1])
    (fun _ => []) (by decide) (by simp)
  exact h.2.2.2.2.2

/-- C10: with an empty in-memory index, a request with a valid (non-empty
string) message gets HTTP 400 with an error body; the embedding service is
not called (second component `false`) and the index is left unchanged
(third component equals the input index `[]`). -/
theorem chat_empty_index (minTopSim minAvgTop3 : ℝ) (m : Str)
    (embedQ : Str → List ℝ) (complete : Str → Str) (hm : m ≠ []) :
    chatHandler minTopSim minAvgTop3 [] (some m) embedQ complete
      = (ChatResponse.badRequest "No index found. Use admin panel to add resources.".data,
          false, []) ∧
    statusCodeOf (chatHandler minTopSim minAvgTop3 [] (some m) embedQ complete).1 = 400 := by
  have h : chatHandler minTopSim minAvgTop3 [] (some m) embedQ complete
      = (ChatResponse.badRequest "No index found. Use admin panel to add resources.".data,
          false, []) := by
    simp only [chatHandler]
    rw [if_neg hm]
    rfl
  refine ⟨h, ?_⟩
  rw [h]
  rfl

/-- Witness: a concrete valid message against the empty index. -/
theorem chat_empty_index_witness :
    chatHandler 0.78 0.72 [] (some "hi".data) (fun _ => []) (fun _ => [])
      = (ChatResponse.badRequest "No index found. Use admin panel to add resources.".data,
          false, []) :=
  (chat_empty_index 0.78 0.72 "hi".data (fun _ => []) (fun _ => []) (by decide)).1

/-! ## Admin authentication -/

/-- C9: when an admin token is configured (non-empty) and the request's
`Authorization` header does not carry `Bearer <token>` (including a missing
header), every admin endpoint responds 401 and the route handler is not
reached — the result is `Except.error 401` for every handler, so the
handler's output is never used. -/
theorem admin_unauthorized {α : Type} (adminToken : Str) (authHeader : Option Str)
    (handler : Unit → α) (htok : adminToken ≠ [])
    (hauth : authHeader ≠ some ("Bearer ".data ++ adminToken)) :
    adminEndpoint adminToken authHeader handler = Except.error 401 := by
  have hcheck : requireAdmin adminToken authHeader = AuthCheck.err401 := by
    rw [requireAdmin, if_neg htok]
    by_cases hp : ("Bearer ".data).isPrefixOf (authHeader.getD []) = true
    · rw [if_pos hp, if_neg ?_]
      intro heq
      have hpre : "Bearer ".data <+: authHeader.getD [] :=
        List.isPrefixOf_iff_prefix.mp hp
      obtain ⟨rest, hrest⟩ := hpre
      have hdrop : ("Bearer ".data ++ rest).drop 7 = rest := by
        have h7 : ("Bearer ".data).length = 7 := rfl
        rw [← h7, List.drop_left]
      rw [← hrest, hdrop] at heq
      subst heq
      cases authHeader with
      | none => exact absurd hrest (by simp)
      | some hstr =>
        apply hauth
        simp only [Option.getD_some] at hrest
        rw [hrest]
    · rw [if_neg hp, if_neg (fun h => htok h.symm)]
  simp only [adminEndpoint, hcheck]

/-- Witness: a wrong bearer token against a configured admin token. -/
theorem admin_unauthorized_witness :
    adminEndpoint "secret".data (some "Bearer nope".data) (fun _ => (0 : ℕ))
      = Except.error 401 :=
  admin_unauthorized "secret".data (some "Bearer nope".data) (fun _ => 0)
    (by decide) (by decide)

/-! ## Decimal digits and record ids -/

theorem natDigitsAux_fuel (n : ℕ) :
    ∀ f₁ f₂, n < f₁ → n < f₂ → natDigitsAux f₁ n = natDigitsAux f₂ n := by
  induction n using Nat.strong_induction_on with
  | _ n ih =>
    intro f₁ f₂ h₁ h₂
    cases f₁ with
    | zero => omega
    | succ g₁ =>
      cases f₂ with
      | zero => omega
      | succ g₂ =>
        simp only [natDigitsAux]
        by_cases h10 : n < 10
        · rw [if_pos h10, if_pos h10]
        · rw [if_neg h10, if_neg h10]
          have hdiv : n / 10 < n := Nat.div_lt_self (by omega) (by omega)
          rw [ih (n / 10) hdiv g₁ g₂ (by omega) (by omega)]

theorem natDigits_eq (n : ℕ) :
    natDigits n = if n < 10 then [Nat.digitChar n]
      else natDigits (n / 10) ++ [Nat.digitChar (n % 10)] := by
  show natDigitsAux (n + 1) n = _
  simp only [natDigitsAux]
  by_cases h10 : n < 10
  · rw [if_pos h10, if_pos h10]
  · rw [if_neg h10, if_neg h10]
    have hdiv : n / 10 < n := Nat.div_lt_self (by omega) (by omega)
    rw [natDigits, natDigitsAux_fuel (n / 10) n (n / 10 + 1) (by omega) (by omega)]

theorem natDigits_ne_nil (n : ℕ) : natDigits n ≠ [] := by
  rw [natDigits_eq]
  by_cases h10 : n < 10
  · rw [if_pos h10]
    exact List.cons_ne_nil _ _
  · rw [if_neg h10]
    intro habs
    have hl : (natDigits (n / 10) ++ [Nat.digitChar (n % 10)]).length = 0 := by
      rw [habs]
      rfl
    rw [List.length_append, List.length_singleton] at hl
    omega

theorem digitChar_ne_colon : ∀ k < 10, Nat.digitChar k ≠ ':' := by decide

theorem digitChar_inj : ∀ k < 10, ∀ j < 10, Nat.digitChar k = Nat.digitChar j → k = j := by
  decide

theorem natDigits_ne_colon (n : ℕ) : ∀ c ∈ natDigits n, c ≠ ':' := by
  induction n using Nat.strong_induction_on with
  | _ n ih =>
    intro c hc
    rw [natDigits_eq] at hc
    by_cases h10 : n < 10
    · rw [if_pos h10] at hc
      simp only [List.mem_singleton] at hc
      subst hc
      exact digitChar_ne_colon n h10
    · rw [if_neg h10] at hc
      rcases List.mem_append.mp hc with h1 | h2
      · exact ih (n / 10) (Nat.div_lt_self (by omega) (by omega)) c h1
      · simp only [List.mem_singleton] at h2
        subst h2
        exact digitChar_ne_colon (n % 10) (Nat.mod_lt _ (by omega))

theorem natDigits_inj : ∀ m n : ℕ, natDigits m = natDigits n → m = n := by
  intro m
  induction m using Nat.strong_induction_on with
  | _ m ih =>
    intro n h
    rw [natDigits_eq m, natDigits_eq n] at h
    by_cases hm : m < 10 <;> by_cases hn : n < 10
    · rw [if_pos hm, if_pos hn] at h
      simp only [List.cons.injEq, and_true] at h
      exact digitChar_inj m hm n hn h
    · rw [if_pos hm, if_neg hn] at h
      have hlen := congrArg List.length h
      simp only [List.length_singleton, List.length_append] at hlen
      have hne := natDigits_ne_nil (n / 10)
      have h0 : (natDigits (n / 10)).length = 0 := by omega
      exact absurd (List.length_eq_zero.mp h0) hne
    · rw [if_neg hm, if_pos hn] at h
      have hlen := congrArg List.length h
      simp only [List.length_singleton, List.length_append] at hlen
      have hne := natDigits_ne_nil (m / 10)
      have h0 : (natDigits (m / 10)).length = 0 := by omega
      exact absurd (List.length_eq_zero.mp h0) hne
    · rw [if_neg hm, if_neg hn] at h
      obtain ⟨h1, h2⟩ := List.append_inj' h (by simp)
      have hdiv := ih (m / 10) (Nat.div_lt_self (by omega) (by omega)) (n / 10) h1
      simp only [List.cons.injEq, and_true] at h2
      have hmod := digitChar_inj (m % 10) (Nat.mod_lt _ (by omega))
        (n % 10) (Nat.mod_lt _ (by omega)) h2
      omega

theorem mkId_aux {p₁ p₂ : Str} {i₁ i₂ : ℕ}
    (hlt : (natDigits i₁).length < (natDigits i₂).length)
    (h : mkId p₁ i₁ = mkId p₂ i₂) : False := by
  simp only [mkId] at h
  have hsplit : natDigits i₂
      = (natDigits i₂).take ((natDigits i₂).length - (natDigits i₁).length)
        ++ (natDigits i₂).drop ((natDigits i₂).length - (natDigits i₁).length) :=
    (List.take_append_drop _ _).symm
  rw [hsplit, ← List.append_assoc] at h
  have hlen : (natDigits i₁).length
      = ((natDigits i₂).drop ((natDigits i₂).length - (natDigits i₁).length)).length := by
    rw [List.length_drop]
    omega
  obtain ⟨hpre, -⟩ := List.append_inj' h hlen
  have htake_ne : (natDigits i₂).take ((natDigits i₂).length - (natDigits i₁).length)
      ≠ [] := by
    intro habs
    have hl : ((natDigits i₂).take ((natDigits i₂).length - (natDigits i₁).length)).length
        = 0 := by
      rw [habs]
      rfl
    rw [List.length_take] at hl
    omega
  have hc1 : (p₁ ++ "::".data).getLast? = some ':' := by
    rw [List.getLast?_append_of_ne_nil p₁ (by simp)]
    rfl
  have hc2 : (p₂ ++ "::".data
        ++ (natDigits i₂).take ((natDigits i₂).length - (natDigits i₁).length)).getLast?
      = ((natDigits i₂).take ((natDigits i₂).length - (natDigits i₁).length)).getLast? :=
    List.getLast?_append_of_ne_nil _ htake_ne
  rw [hpre, hc2] at hc1
  have hmem : (':' : Char)
      ∈ (natDigits i₂).take ((natDigits i₂).length - (natDigits i₁).length) :=
    List.mem_of_mem_getLast? (by rw [hc1]; rfl)
  exact natDigits_ne_colon i₂ ':' (List.take_subset _ _ hmem) rfl

/-- Distinct (prefix, chunk index) pairs always yield distinct id strings:
the decimal chunk index contains no `:`, so the id determines both parts. -/
theorem mkId_inj {p₁ p₂ : Str} {i₁ i₂ : ℕ} (h : mkId p₁ i₁ = mkId p₂ i₂) :
    p₁ = p₂ ∧ i₁ = i₂ := by
  rcases Nat.lt_trichotomy (natDigits i₁).length (natDigits i₂).length with hlt | heq | hgt
  · exact (mkId_aux hlt h).elim
  · simp only [mkId] at h
    obtain ⟨hpre, hd⟩ := List.append_inj' h heq
    exact ⟨List.append_cancel_right hpre, natDigits_inj _ _ hd⟩
  · exact (mkId_aux hgt h.symm).elim

/-! ## Vector store lemmas -/

theorem batchRecords_ids (b : Batch) :
    (batchRecords b).map IndexRecord.id
      = (List.range b.chunks.length).map (fun i => mkId b.idPref i) := by
  rw [batchRecords, List.map_map]
  rfl

theorem batchRecords_ids_nodup (b : Batch) :
    ((batchRecords b).map IndexRecord.id).Nodup := by
  rw [batchRecords_ids]
  exact (List.nodup_range _).map (fun a b hab => (mkId_inj hab).2)

theorem mem_batchRecords_id {b : Batch} {r : IndexRecord} (hr : r ∈ batchRecords b) :
    ∃ i, r.id = mkId b.idPref i := by
  rw [batchRecords] at hr
  simp only [List.mem_map] at hr
  obtain ⟨i, hi, rfl⟩ := hr
  exact ⟨i, rfl⟩

/-- Every record of `idx` has an id built from one of the prefixes `ps`. -/
def FromPrefixes (ps : List Str) (idx : List IndexRecord) : Prop :=
  ∀ r ∈ idx, ∃ p ∈ ps, ∃ i, r.id = mkId p i

theorem nodup_append_batch {idx : List IndexRecord} {ps : List Str} {b : Batch}
    (hnd : (idx.map IndexRecord.id).Nodup) (hfrom : FromPrefixes ps idx)
    (hp : b.idPref ∉ ps) :
    ((embedAndAppend idx b).map IndexRecord.id).Nodup ∧
    FromPrefixes (ps ++ [b.idPref]) (embedAndAppend idx b) := by
  constructor
  · rw [embedAndAppend, List.map_append, List.nodup_append]
    refine ⟨hnd, batchRecords_ids_nodup b, ?_⟩
    intro a ha hab
    simp only [List.mem_map] at ha hab
    obtain ⟨r, hr, rfl⟩ := ha
    obtain ⟨p, hpmem, i, hpi⟩ := hfrom r hr
    obtain ⟨r2, hr2, hid2⟩ := hab
    obtain ⟨j, hj⟩ := mem_batchRecords_id hr2
    rw [hpi] at hid2
    rw [hj] at hid2
    exact hp ((mkId_inj hid2).1 ▸ hpmem)
  · intro r hr
    rw [embedAndAppend, List.mem_append] at hr
    rcases hr with h1 | h2
    · obtain ⟨p, hpm, i, hi⟩ := hfrom r h1
      exact ⟨p, List.mem_append_left _ hpm, i, hi⟩
    · obtain ⟨i, hi⟩ := mem_batchRecords_id h2
      exact ⟨b.idPref, List.mem_append_right _ (by simp), i, hi⟩

theorem nodup_rebuild (bs : List Batch) (hnd : (bs.map Batch.idPref).Nodup) :
    ((bs.flatMap batchRecords).map IndexRecord.id).Nodup ∧
    FromPrefixes (bs.map Batch.idPref) (bs.flatMap batchRecords) := by
  induction bs with
  | nil =>
    constructor
    · simp
    · intro r hr
      simp at hr
  | cons b bs ih =>
    rw [List.map_cons, List.nodup_cons] at hnd
    obtain ⟨hb, hbs⟩ := hnd
    obtain ⟨ih1, ih2⟩ := ih hbs
    constructor
    · rw [List.flatMap_cons, List.map_append, List.nodup_append]
      refine ⟨batchRecords_ids_nodup b, ih1, ?_⟩
      intro a ha hab
      simp only [List.mem_map] at ha hab
      obtain ⟨r, hr, rfl⟩ := ha
      obtain ⟨j, hj⟩ := mem_batchRecords_id hr
      obtain ⟨r2, hr2, hid2⟩ := hab
      obtain ⟨p, hpm, i, hpi⟩ := ih2 r2 hr2
      rw [hpi] at hid2
      rw [hj] at hid2
      exact hb ((mkId_inj hid2.symm).1 ▸ hpm)
    · intro r hr
      rw [List.flatMap_cons, List.mem_append] at hr
      rcases hr with h1 | h2
      · obtain ⟨i, hi⟩ := mem_batchRecords_id h1
        exact ⟨b.idPref, by simp, i, hi⟩
      · obtain ⟨p, hpm, i, hi⟩ := ih2 r h2
        exact ⟨p, by simp [hpm], i, hi⟩

theorem runMutations_aux (ms : List Mutation) :
    ∀ (idx : List IndexRecord) (ps : List Str),
      (idx.map IndexRecord.id).Nodup → FromPrefixes ps idx →
      (ms.flatMap mutPrefixList).Nodup →
      (∀ p ∈ ms.flatMap mutPrefixList, p ∉ ps) →
      ((ms.foldl applyMutation idx).map IndexRecord.id).Nodup := by
  induction ms with
  | nil =>
    intro idx ps h1 _ _ _
    simpa using h1
  | cons mu rest ih =>
    intro idx ps h1 h2 h3 h4
    rw [List.foldl_cons]
    cases mu with
    | append b =>
      rw [List.flatMap_cons] at h3 h4
      simp only [mutPrefixList, List.singleton_append] at h3 h4
      rw [List.nodup_cons] at h3
      obtain ⟨hbp, hrest⟩ := h3
      have hbnotps : b.idPref ∉ ps := h4 b.idPref (by simp)
      obtain ⟨hnd2, hfrom2⟩ := nodup_append_batch h1 h2 hbnotps
      refine ih (embedAndAppend idx b) (ps ++ [b.idPref]) hnd2 hfrom2 hrest ?_
      intro p hp hmem
      rcases List.mem_append.mp hmem with hps | hsing
      · exact h4 p (List.mem_cons_of_mem _ hp) hps
      · simp only [List.mem_singleton] at hsing
        subst hsing
        exact hbp hp
    | deleteSrc s =>
      refine ih _ ps ?_ ?_ ?_ ?_
      · exact List.Nodup.sublist ((List.filter_sublist idx).map IndexRecord.id) h1
      · intro r hr
        exact h2 r (List.mem_of_mem_filter hr)
      · rw [List.flatMap_cons] at h3
        simpa [mutPrefixList] using h3
      · rw [List.flatMap_cons] at h4
        intro p hp
        exact h4 p (by simpa [mutPrefixList] using hp)
    | rebuild bs =>
      rw [List.flatMap_cons] at h3 h4
      simp only [mutPrefixList] at h3 h4
      rw [List.nodup_append] at h3
      obtain ⟨hbs, hrest, hdisj⟩ := h3
      obtain ⟨hnd2, hfrom2⟩ := nodup_rebuild bs hbs
      refine ih _ (bs.map Batch.idPref) hnd2 hfrom2 hrest ?_
      intro p hp hmem
      exact hdisj hmem hp

/-- C5 (amended): record ids are pairwise distinct after any sequence of
index mutations (append via upload or add-url, deleteBySource, rebuild)
*provided* all append and rebuild batches use pairwise distinct id
prefixes, i.e. no source is ingested twice without an intervening rebuild.
Re-ingesting the same source (the counterexample adds the same URL twice)
produces duplicate ids. -/
theorem index_ids_nodup (ms : List Mutation)
    (h : (ms.flatMap mutPrefixList).Nodup) :
    ((runMutations ms).map IndexRecord.id).Nodup := by
  refine runMutations_aux ms [] [] (by simp) ?_ h ?_
  · intro r hr
    simp at hr
  · intro p hp
    simp

/-- Witness: adding the URL `u` once and deleting an unrelated source keeps
all ids distinct. -/
theorem index_ids_nodup_witness :
    ((runMutations [Mutation.append batchU, Mutation.deleteSrc "x".data]).map
      IndexRecord.id).Nodup :=
  index_ids_nodup [Mutation.append batchU, Mutation.deleteSrc "x".data] (by decide)

/-- C5 counterexample: adding the same URL `u` twice (two `add-url` requests
for the same address) appends two records that both carry the id
`url:u::0`, so the ids in the store are not pairwise distinct. -/
theorem index_ids_dup_cex :
    ¬ ((runMutations [Mutation.append batchU, Mutation.append batchU]).map
        IndexRecord.id).Nodup := by
  decide

/-! ## deleteBySource -/

theorem length_filter_source (idx : List IndexRecord) (s : Str) :
    (idx.filter (fun it => it.source ≠ s)).length
      + (idx.filter (fun it => it.source = s)).length = idx.length := by
  have h := List.length_eq_length_filter_add
    (l := idx) (fun it => decide (it.source = s))
  have hcongr : idx.filter (fun it => !decide (it.source = s))
      = idx.filter (fun it => it.source ≠ s) := by
    apply List.filter_congr
    intro a ha
    simp
  rw [hcongr] at h
  omega

/-- C7: `deleteBySource` removes exactly the records whose `source` equals
the given value: the remaining index is a sublist of the original (so the
unaffected records keep their relative order), contains no record with the
given source, retains every record with a different source, and the
returned count equals the number of records whose source matched. -/
theorem deleteBySource_spec (idx : List IndexRecord) (s : Str) :
    List.Sublist (deleteBySource idx s).1 idx ∧
    (∀ r ∈ (deleteBySource idx s).1, r.source ≠ s) ∧
    (∀ r ∈ idx, r.source ≠ s → r ∈ (deleteBySource idx s).1) ∧
    (deleteBySource idx s).2 = (idx.filter (fun r => r.source = s)).length := by
  refine ⟨List.filter_sublist idx, ?_, ?_, ?_⟩
  · intro r hr
    have h := List.mem_filter.mp hr
    simpa using h.2
  · intro r hr hne
    exact List.mem_filter.mpr ⟨hr, by simpa using hne⟩
  · show idx.length - (idx.filter (fun it => it.source ≠ s)).length
        = (idx.filter (fun r => r.source = s)).length
    have h := length_filter_source idx s
    omega

/-- Witness: deleting source `a` from `[recA, recB]` keeps `recB`. -/
theorem deleteBySource_spec_witness :
    recB ∈ (deleteBySource [recA, recB] "a".data).1 :=
  (deleteBySource_spec [recA, recB] "a".data).2.2.1 recB (by simp) (by decide)

end ChatApp
